import Mathlib

/-!
Verification of the heuristic scoring functions of SmartATS Pro Elite.

Texts are modelled as `List Char` (ASCII scope: `\w` is `[A-Za-z0-9_]`,
`\s` is the six ASCII whitespace characters, `str.lower` maps `A`-`Z`).
Python floats are modelled exactly: `floatR` rounds a rational to the
nearest IEEE-754 binary64 value (round half to even), so `a / b` on
Python ints is `floatR (a / b)`, `x * y` is `floatR (x * y)`, and so on.
Python `int(...)` on a float is truncation toward zero (`pyTrunc`).
-/

set_option maxRecDepth 100000

/-- Number of binary digits of `n` (`bitLen 0 = 0`), via structural fuel. -/
def bitLenAux : ℕ → ℕ → ℕ
  | 0, _ => 0
  | fuel + 1, n => if n = 0 then 0 else bitLenAux fuel (n / 2) + 1

def bitLen (n : ℕ) : ℕ := bitLenAux n n

/-- Floor of the base-2 logarithm of `|q|`, for `q ≠ 0`. -/
def ratLog2 (q : ℚ) : ℤ :=
  if (2 : ℚ) ^ ((bitLen q.num.natAbs : ℤ) - (bitLen q.den : ℤ)) ≤ |q|
  then (bitLen q.num.natAbs : ℤ) - (bitLen q.den : ℤ)
  else (bitLen q.num.natAbs : ℤ) - (bitLen q.den : ℤ) - 1

/-- Round a rational to the nearest integer, ties to even. -/
def rhe (q : ℚ) : ℤ :=
  if q - (⌊q⌋ : ℚ) < 1 / 2 then ⌊q⌋
  else if (1 : ℚ) / 2 < q - (⌊q⌋ : ℚ) then ⌊q⌋ + 1
  else if ⌊q⌋ % 2 = 0 then ⌊q⌋ else ⌊q⌋ + 1

/-- The exact value of the IEEE-754 binary64 (round to nearest, ties to
even) rounding of a rational number; overflow and subnormal thresholds
are outside the ranges arising in this development. -/
def floatR (q : ℚ) : ℚ :=
  if q = 0 then 0
  else (rhe (q / 2 ^ (ratLog2 q - 52)) : ℚ) * 2 ^ (ratLog2 q - 52)

/-- Python `\s` over ASCII: space, tab, newline, carriage return,
vertical tab, form feed (codepoints 32, 9, 10, 13, 11, 12). -/
def isPySpace (c : Char) : Bool :=
  decide (c.toNat = 32 ∨ c.toNat = 9 ∨ c.toNat = 10 ∨ c.toNat = 13 ∨
    c.toNat = 11 ∨ c.toNat = 12)

/-- Python `\w` over ASCII: `[A-Za-z0-9_]`. -/
def isWordChar (c : Char) : Bool := c.isAlphanum || c = '_'

/-- Python `str.lower()` over ASCII. -/
def lower (text : List Char) : List Char := text.map Char.toLower

/-- Python `str.split()` with no argument: split on runs of whitespace,
discarding empty fragments.  `acc` holds the current word reversed. -/
def pySplitAux : List Char → List Char → List (List Char)
  | [], acc => if acc = [] then [] else [acc.reverse]
  | c :: cs, acc =>
    if isPySpace c then
      if acc = [] then pySplitAux cs [] else acc.reverse :: pySplitAux cs []
    else pySplitAux cs (c :: acc)

def pySplit (text : List Char) : List (List Char) := pySplitAux text []

/-- Python `str.split('.')`: split at every `'.'`, keeping empty fragments. -/
def splitOnDotAux : List Char → List Char → List (List Char)
  | [], acc => [acc.reverse]
  | c :: cs, acc =>
    if c = '.' then acc.reverse :: splitOnDotAux cs []
    else splitOnDotAux cs (c :: acc)

def splitOnDot (text : List Char) : List (List Char) := splitOnDotAux text []

/-- Python `int(...)` applied to a (here exactly represented) float:
truncation toward zero. -/
def pyTrunc (q : ℚ) : ℤ := if 0 ≤ q then ⌊q⌋ else -⌊-q⌋

/-- Whether `pat` is an initial segment of `l`. -/
def leadsWith : List Char → List Char → Bool
  | [], _ => true
  | _ :: _, [] => false
  | p :: ps, c :: cs => p = c && leadsWith ps cs

/-- Python `pat in text` for strings: substring occurrence. -/
def occursIn (pat : List Char) : List Char → Bool
  | [] => pat.isEmpty
  | c :: cs => leadsWith pat (c :: cs) || occursIn pat cs

/-- A match of `\d{4}\b` starting at the head of the list. -/
def startsWithYear : List Char → Bool
  | c1 :: c2 :: c3 :: c4 :: rest =>
    c1.isDigit && c2.isDigit && c3.isDigit && c4.isDigit &&
      (match rest with
       | [] => true
       | c5 :: _ => !(isWordChar c5))
  | _ => false

def prevBoundary : Option Char → Bool
  | none => true
  | some p => !(isWordChar p)

/-- Scanner for `re.search(r'\b\d{4}\b', text)`: `prev` is the character
just before the current position, if any. -/
def hasYearAux : Option Char → List Char → Bool
  | _, [] => false
  | prev, c :: rest =>
    (prevBoundary prev && startsWithYear (c :: rest)) || hasYearAux (some c) rest

def hasYear (text : List Char) : Bool := hasYearAux none text

/-- `len(re.findall(r'[^\w\s]', text))`. -/
def specialCharCount (text : List Char) : ℕ :=
  (text.filter (fun c => !(isWordChar c) && !(isPySpace c))).length

/-- The straight-line arithmetic written in the body of
`calculate_quick_ats_score` (`enhanced_app_integration.py` lines 545-560):
start at 100; deduct 20 when `len(resume_text) < 500`, 15 when
`re.search(r'\b\d{4}\b', ...)` fails, 10 when there is no `'@'`, 10 when
`len(re.findall(r'[^\w\s]', ...)) > len(resume_text) * 0.1` (a float
comparison); `max(0, score)`.  This is what the body would compute if the
global name `re` were bound — see `calculate_quick_ats_score` below for what
actually happens. -/
def quick_ats_score_body (resume_text : List Char) : ℤ :=
  let score1 : ℤ := 100
  let score2 := if resume_text.length < 500 then score1 - 20 else score1
  let score3 := if hasYear resume_text then score2 else score2 - 15
  let score4 := if '@' ∈ resume_text then score3 else score3 - 10
  let score5 :=
    if (specialCharCount resume_text : ℚ) >
        floatR (floatR (resume_text.length : ℚ) * floatR (1 / 10))
    then score4 - 10 else score4
  max 0 score5

/-- A raised Python exception: a `NameError` from reading an unbound global
name, carrying that name. -/
inductive PyError where
  | nameError (missing : String) : PyError
  deriving DecidableEq

/-- Whether the module `enhanced_app_integration.py` binds the global name
`re`.  Its imports (lines 1-39) bind dotenv, streamlit, os, datetime, json,
time, plotly, typing, pandas, asyncio, concurrent.futures and the project's
own modules; `import re` appears nowhere, and `re` is never assigned, so the
name is unbound in the module's globals (and it is no builtin). -/
def module_binds_re : Bool := false

/-- `calculate_quick_ats_score` from `enhanced_app_integration.py` as it
actually executes: `score = 100` and the length-based deduction are pure and
complete, but the next statement, `re.search(r'\b\d{4}\b', resume_text)`
(line 551), resolves the global name `re` at call time; the module never
binds it (`module_binds_re`), so every call raises
`NameError: name 're' is not defined` and the function never reaches
`return max(0, score)`.  Only were `re` bound would the call return the
body's arithmetic, `quick_ats_score_body`. -/
def calculate_quick_ats_score (resume_text : List Char) : Except PyError ℤ :=
  if module_binds_re then Except.ok (quick_ats_score_body resume_text)
  else Except.error (PyError.nameError "re")

/-- `calculate_keyword_density` from `enhanced_app_integration.py`. -/
def calculate_keyword_density (resume_text job_description : List Char) : ℤ :=
  let resume_words := (pySplit (lower resume_text)).dedup
  let jd_words := (pySplit (lower job_description)).dedup
  let common_words := resume_words.filter (fun w => w ∈ jd_words)
  if jd_words = [] then 0
  else pyTrunc (floatR (floatR ((common_words.length : ℚ) / (jd_words.length : ℚ)) * 100))

/-- `EnhancedAnalyzer._calculate_readability` from `app.py`. -/
def _calculate_readability (text : List Char) : ℤ :=
  let words := pySplit text
  let sentences := splitOnDot text
  let avg := floatR ((words.length : ℚ) / ((max sentences.length 1 : ℕ) : ℚ))
  let readability : ℚ := max 0 (min 100 (floatR (100 - floatR (floatR (avg - 15) * 2))))
  pyTrunc readability

/-- `EnhancedAnalyzer._calculate_uniqueness` from `app.py`. -/
def _calculate_uniqueness (text : List Char) : ℤ :=
  let unique_words := (pySplit (lower text)).dedup
  let total_words := (pySplit text).length
  let uniqueness : ℚ :=
    if total_words > 0
    then floatR (floatR ((unique_words.length : ℚ) / (total_words : ℚ)) * 100)
    else 0
  min 100 (pyTrunc (floatR (uniqueness * (3 / 2))))

def positive_words : List (List Char) :=
  ["achieved".toList, "improved".toList, "increased".toList, "successful".toList,
   "led".toList, "managed".toList, "developed".toList]

def weak_words : List (List Char) :=
  ["responsible for".toList, "duties included".toList, "worked on".toList,
   "helped with".toList]

structure SentimentResult where
  tone_score : ℤ
  positive_indicators : ℕ
  weak_indicators : ℕ
  overall_tone : String
  deriving DecidableEq

/-- `EnhancedAnalyzer._analyze_sentiment` from `app.py`. -/
def _analyze_sentiment (text : List Char) : SentimentResult :=
  let positive_count := (positive_words.filter (fun w => occursIn w (lower text))).length
  let weak_count := (weak_words.filter (fun w => occursIn w (lower text))).length
  { tone_score := min 100 (((positive_count : ℤ) - (weak_count : ℤ)) * 10 + 70)
    positive_indicators := positive_count
    weak_indicators := weak_count
    overall_tone := if positive_count > weak_count then "Strong" else "Needs Improvement" }

/-- The `industry_keywords` dictionary of `_get_industry_insights`,
with `dict.get(industry, [])` lookup. -/
def industry_keywords (industry : String) : List String :=
  if industry = "Technology" then
    ["agile", "scrum", "api", "cloud", "devops", "microservices", "scalability"]
  else if industry = "Healthcare" then
    ["hipaa", "patient care", "clinical", "medical", "compliance", "safety"]
  else if industry = "Finance" then
    ["regulatory", "compliance", "risk management", "audit", "financial modeling"]
  else if industry = "Marketing" then
    ["seo", "sem", "analytics", "conversion", "campaigns", "brand", "roi"]
  else if industry = "Data Science" then
    ["machine learning", "statistics", "python", "sql", "visualization", "modeling"]
  else []

/-- The part of the analysis dictionary that `_get_industry_insights`
reads: `analysis.get('matched_keywords', [])`. -/
structure Analysis where
  matched_keywords : List String
  deriving DecidableEq

/-- `EnhancedAnalyzer._get_industry_recommendations` from `app.py`. -/
def _get_industry_recommendations (industry : String) (_missing_keywords : List String) : List String :=
  if industry = "Technology" then
    ["Emphasize technical achievements with metrics",
     "Include open-source contributions or personal projects",
     "Highlight experience with modern tech stacks"]
  else if industry = "Healthcare" then
    ["Emphasize patient outcomes and safety improvements",
     "Include relevant certifications and compliance knowledge",
     "Highlight interdisciplinary collaboration"]
  else if industry = "Finance" then
    ["Quantify financial impacts and cost savings",
     "Emphasize risk management and compliance experience",
     "Include relevant financial modeling and analysis skills"]
  else ["Tailor resume to industry-specific requirements"]

structure IndustryInsights where
  industry : String
  matched_industry_keywords : List String
  missing_industry_keywords : List String
  industry_score : ℚ
  industry_recommendations : List String
  deriving DecidableEq

/-- `EnhancedAnalyzer._get_industry_insights` from `app.py`; the score is
`len(matched)/len(relevant)*100` computed in floats when `relevant` is
nonempty, else `0`. -/
def _get_industry_insights (industry : String) (analysis : Analysis) : IndustryInsights :=
  let relevant_keywords := industry_keywords industry
  let matched := relevant_keywords.filter (fun kw => kw ∈ analysis.matched_keywords)
  let missing := relevant_keywords.filter (fun kw => kw ∉ analysis.matched_keywords)
  { industry := industry
    matched_industry_keywords := matched
    missing_industry_keywords := missing
    industry_score :=
      if relevant_keywords = [] then 0
      else floatR (floatR ((matched.length : ℚ) / (relevant_keywords.length : ℚ)) * 100)
    industry_recommendations := _get_industry_recommendations industry missing }

/-- The declarative reading of Python `pat in text`: `pat` occurs as a
contiguous substring. -/
def SubstringOf (pat l : List Char) : Prop := ∃ pre post, l = pre ++ pat ++ post

/-- A block of exactly four digits. -/
def IsYearChunk (d : List Char) : Prop := d.length = 4 ∧ ∀ c ∈ d, c.isDigit = true

/-- The character after the match, if any, is not a word character. -/
def BoundaryAfter (post : List Char) : Prop :=
  ∀ c, post.head? = some c → isWordChar c = false

/-- The character before the match, if any, is not a word character;
when the candidate prefix is empty this is the scanner's `prev`. -/
def lastOk (prev : Option Char) (pre : List Char) : Prop :=
  (∀ c, pre.getLast? = some c → isWordChar c = false) ∧
  (pre = [] → prevBoundary prev = true)

/-- The declarative reading of `re.search(r'\b\d{4}\b', text)`: the text
contains a standalone four-digit number. -/
def StandaloneYear (text : List Char) : Prop :=
  ∃ pre d post, text = pre ++ d ++ post ∧ IsYearChunk d ∧
    (∀ c, pre.getLast? = some c → isWordChar c = false) ∧ BoundaryAfter post

/-- The C1 claim formula: start from 100 and deduct exactly 20, 15, 10, 10
for the four conditions, the last one read as exact arithmetic
(`special characters > 10% of the length`), then clamp at 0. -/
def quickScoreSpec (text : List Char) : ℤ :=
  max 0 (100 - (if text.length < 500 then 20 else 0)
           - (if hasYear text then 0 else 15)
           - (if '@' ∈ text then 0 else 10)
           - (if 10 * specialCharCount text > text.length then 10 else 0))

/-- The C2 claim formula, in exact rational arithmetic: the truncation of
(distinct common words / distinct job-description words) * 100. -/
def keywordDensitySpec (resume_text job_description : List Char) : ℤ :=
  if (pySplit (lower job_description)).toFinset.card = 0 then 0
  else pyTrunc
    ((((pySplit (lower resume_text)).toFinset ∩ (pySplit (lower job_description)).toFinset).card : ℚ) /
      ((pySplit (lower job_description)).toFinset.card : ℚ) * 100)

/-- The C2 claim formula amended to binary64 arithmetic, as the code
computes it. -/
def keywordDensityFloat (resume_text job_description : List Char) : ℤ :=
  if (pySplit (lower job_description)).toFinset.card = 0 then 0
  else pyTrunc (floatR (floatR
    ((((pySplit (lower resume_text)).toFinset ∩ (pySplit (lower job_description)).toFinset).card : ℚ) /
      ((pySplit (lower job_description)).toFinset.card : ℚ)) * 100))

/-- The C5 claim formula, in exact rational arithmetic. -/
def uniquenessSpec (text : List Char) : ℤ :=
  if (pySplit text).length = 0 then 0
  else min 100 (pyTrunc
    (((pySplit (lower text)).toFinset.card : ℚ) / ((pySplit text).length : ℚ) * 100 * (3 / 2)))

/-- The C5 claim formula amended to binary64 arithmetic, as the code
computes it. -/
def uniquenessFloat (text : List Char) : ℤ :=
  if (pySplit text).length = 0 then 0
  else min 100 (pyTrunc (floatR (floatR (floatR
    (((pySplit (lower text)).toFinset.card : ℚ) / ((pySplit text).length : ℚ)) * 100) * (3 / 2))))

/-- C2 counterexample input: a job description of 50 distinct single-character
words and a resume containing 29 of them. -/
def cexResume : List Char :=
  "a b c d e f g h i j k l m n o p q r s t u v w x y z 0 1 2".toList

def cexJD : List Char :=
  "a b c d e f g h i j k l m n o p q r s t u v w x y z 0 1 2 3 4 5 6 7 8 9 ! ? # $ % & * + - / < > = _".toList

theorem bitLenAux_zero (fuel : ℕ) : bitLenAux fuel 0 = 0 := by
  cases fuel <;> simp [bitLenAux]

theorem bitLenAux_spec : ∀ fuel n : ℕ, n ≤ fuel → n ≠ 0 →
    2 ^ (bitLenAux fuel n - 1) ≤ n ∧ n < 2 ^ bitLenAux fuel n := by
  intro fuel
  induction fuel with
  | zero => intro n hn h0; omega
  | succ f ih =>
    intro n hn h0
    rw [bitLenAux, if_neg h0]
    by_cases h1 : n = 1
    · subst h1
      simp [bitLenAux_zero]
    · have h2 : 2 ≤ n := by omega
      have hdiv : n / 2 ≤ f := by omega
      have hdiv0 : n / 2 ≠ 0 := by omega
      obtain ⟨hlo, hhi⟩ := ih (n / 2) hdiv hdiv0
      set L := bitLenAux f (n / 2) with hL
      have hL1 : 1 ≤ L := by
        rcases Nat.eq_zero_or_pos L with h | h
        · rw [h] at hhi; omega
        · exact h
      constructor
      · have : 2 ^ L = 2 * 2 ^ (L - 1) := by
          rw [← pow_succ']
          congr 1
          omega
        calc 2 ^ (L + 1 - 1) = 2 * 2 ^ (L - 1) := by rw [Nat.add_sub_cancel, this]
          _ ≤ 2 * (n / 2) := by omega
          _ ≤ n := by omega
      · have : 2 ^ (L + 1) = 2 * 2 ^ L := by rw [pow_succ']
        omega

theorem bitLen_spec (n : ℕ) (h : n ≠ 0) :
    2 ^ (bitLen n - 1) ≤ n ∧ n < 2 ^ bitLen n :=
  bitLenAux_spec n n le_rfl h

theorem abs_eq_natAbs_div_den (q : ℚ) :
    |q| = (q.num.natAbs : ℚ) / (q.den : ℚ) := by
  have hd : (0 : ℚ) ≤ (q.den : ℚ) := by positivity
  have h1 : (q.num.natAbs : ℚ) = |(q.num : ℚ)| := by
    rw [Int.cast_natAbs, Int.cast_abs]
  calc |q| = |(q.num : ℚ) / (q.den : ℚ)| := by conv_lhs => rw [← Rat.num_div_den q]
    _ = |(q.num : ℚ)| / |(q.den : ℚ)| := abs_div _ _
    _ = (q.num.natAbs : ℚ) / (q.den : ℚ) := by rw [h1, abs_of_nonneg hd]

theorem ratLog2_spec (q : ℚ) (hq : q ≠ 0) :
    (2 : ℚ) ^ ratLog2 q ≤ |q| ∧ |q| < (2 : ℚ) ^ (ratLog2 q + 1) := by
  have hnum : q.num.natAbs ≠ 0 := by
    simpa [Int.natAbs_eq_zero] using Rat.num_ne_zero.mpr hq
  have hden : q.den ≠ 0 := q.den_nz
  obtain ⟨ha1, ha2⟩ := bitLen_spec q.num.natAbs hnum
  obtain ⟨hb1, hb2⟩ := bitLen_spec q.den hden
  set A := bitLen q.num.natAbs with hA
  set B := bitLen q.den with hB
  have hA1 : 1 ≤ A := by
    rcases Nat.eq_zero_or_pos A with h | h
    · rw [h] at ha2; omega
    · exact h
  have hB1 : 1 ≤ B := by
    rcases Nat.eq_zero_or_pos B with h | h
    · rw [h] at hb2; omega
    · exact h
  have habs : |q| = (q.num.natAbs : ℚ) / (q.den : ℚ) := abs_eq_natAbs_div_den q
  have hdenpos : (0 : ℚ) < (q.den : ℚ) := by positivity
  have h2 : (0 : ℚ) < 2 := by norm_num
  -- upper estimate: |q| < 2 ^ (A - B + 1)
  have hup : |q| < (2 : ℚ) ^ ((A : ℤ) - B + 1) := by
    rw [habs, div_lt_iff₀ hdenpos]
    have e1 : ((2 : ℚ) ^ ((A : ℤ) - B + 1)) * ((2 : ℚ) ^ ((B : ℤ) - 1)) = (2 : ℚ) ^ (A : ℤ) := by
      rw [← zpow_add₀ (by norm_num : (2 : ℚ) ≠ 0)]
      ring_nf
    have hbq : (2 : ℚ) ^ ((B : ℤ) - 1) ≤ (q.den : ℚ) := by
      have : ((2 ^ (B - 1) : ℕ) : ℚ) ≤ (q.den : ℚ) := by exact_mod_cast hb1
      calc (2 : ℚ) ^ ((B : ℤ) - 1) = ((2 ^ (B - 1) : ℕ) : ℚ) := by
            push_cast
            rw [← zpow_natCast (2 : ℚ) (B - 1)]
            congr 1
            omega
        _ ≤ (q.den : ℚ) := this
    have haq : (q.num.natAbs : ℚ) < (2 : ℚ) ^ (A : ℤ) := by
      have : (q.num.natAbs : ℚ) < ((2 ^ A : ℕ) : ℚ) := by exact_mod_cast ha2
      calc (q.num.natAbs : ℚ) < ((2 ^ A : ℕ) : ℚ) := this
        _ = (2 : ℚ) ^ (A : ℤ) := by push_cast; rw [← zpow_natCast (2 : ℚ) A]
    calc (q.num.natAbs : ℚ) < (2 : ℚ) ^ (A : ℤ) := haq
      _ = ((2 : ℚ) ^ ((A : ℤ) - B + 1)) * ((2 : ℚ) ^ ((B : ℤ) - 1)) := e1.symm
      _ ≤ ((2 : ℚ) ^ ((A : ℤ) - B + 1)) * (q.den : ℚ) := by
          apply mul_le_mul_of_nonneg_left hbq (by positivity)
  -- lower estimate: 2 ^ (A - B - 1) ≤ |q|
  have hlo : (2 : ℚ) ^ ((A : ℤ) - B - 1) ≤ |q| := by
    rw [habs, le_div_iff₀ hdenpos]
    have e1 : ((2 : ℚ) ^ ((A : ℤ) - B - 1)) * ((2 : ℚ) ^ (B : ℤ)) = (2 : ℚ) ^ ((A : ℤ) - 1) := by
      rw [← zpow_add₀ (by norm_num : (2 : ℚ) ≠ 0)]
      ring_nf
    have hbq : (q.den : ℚ) ≤ (2 : ℚ) ^ (B : ℤ) := by
      have : (q.den : ℚ) ≤ ((2 ^ B : ℕ) : ℚ) := by exact_mod_cast hb2.le
      calc (q.den : ℚ) ≤ ((2 ^ B : ℕ) : ℚ) := this
        _ = (2 : ℚ) ^ (B : ℤ) := by push_cast; rw [← zpow_natCast (2 : ℚ) B]
    have haq : (2 : ℚ) ^ ((A : ℤ) - 1) ≤ (q.num.natAbs : ℚ) := by
      have : ((2 ^ (A - 1) : ℕ) : ℚ) ≤ (q.num.natAbs : ℚ) := by exact_mod_cast ha1
      calc (2 : ℚ) ^ ((A : ℤ) - 1) = ((2 ^ (A - 1) : ℕ) : ℚ) := by
            push_cast
            rw [← zpow_natCast (2 : ℚ) (A - 1)]
            congr 1
            omega
        _ ≤ (q.num.natAbs : ℚ) := this
    calc ((2 : ℚ) ^ ((A : ℤ) - B - 1)) * (q.den : ℚ)
        ≤ ((2 : ℚ) ^ ((A : ℤ) - B - 1)) * ((2 : ℚ) ^ (B : ℤ)) := by
          apply mul_le_mul_of_nonneg_left hbq (by positivity)
      _ = (2 : ℚ) ^ ((A : ℤ) - 1) := e1
      _ ≤ (q.num.natAbs : ℚ) := haq
  unfold ratLog2
  rw [← hA, ← hB]
  split
  · rename_i h
    exact ⟨h, hup⟩
  · rename_i h
    push_neg at h
    constructor
    · have : (A : ℤ) - B - 1 = ((A : ℤ) - B) - 1 := by ring
      exact this ▸ hlo
    · have : ((A : ℤ) - B) - 1 + 1 = (A : ℤ) - B := by ring
      rw [this]
      exact h

theorem floor_le_rhe (q : ℚ) : ⌊q⌋ ≤ rhe q := by
  unfold rhe
  split
  · omega
  · split
    · omega
    · split <;> omega

theorem rhe_le_floor_add_one (q : ℚ) : rhe q ≤ ⌊q⌋ + 1 := by
  unfold rhe
  split
  · omega
  · split
    · omega
    · split <;> omega

theorem rhe_abs_sub_le (q : ℚ) : |(rhe q : ℚ) - q| ≤ 1 / 2 := by
  have h1 : (⌊q⌋ : ℚ) ≤ q := Int.floor_le q
  have h2 : q < ⌊q⌋ + 1 := Int.lt_floor_add_one q
  unfold rhe
  split
  · rename_i h
    rw [abs_le]
    constructor <;> linarith
  · rename_i h
    push_neg at h
    split
    · rename_i h3
      rw [abs_le]
      push_cast
      constructor <;> linarith
    · rename_i h3
      push_neg at h3
      have : q - ⌊q⌋ = 1 / 2 := le_antisymm h3 h
      split <;> (rw [abs_le]; push_cast; constructor <;> linarith)

theorem rhe_intCast (n : ℤ) : rhe (n : ℚ) = n := by
  unfold rhe
  rw [Int.floor_intCast]
  have hc : (n : ℚ) - (n : ℚ) < 1 / 2 := by norm_num
  rw [if_pos hc]

theorem rhe_eq_floor_of_lt {q : ℚ} (h : q - ⌊q⌋ < 1 / 2) : rhe q = ⌊q⌋ := by
  unfold rhe
  rw [if_pos h]

theorem rhe_eq_of_gt {q : ℚ} (h : (1 : ℚ) / 2 < q - ⌊q⌋) : rhe q = ⌊q⌋ + 1 := by
  unfold rhe
  rw [if_neg (by linarith), if_pos h]

theorem rhe_mono {x y : ℚ} (h : x ≤ y) : rhe x ≤ rhe y := by
  rcases lt_or_le ⌊x⌋ ⌊y⌋ with hf | hf
  · calc rhe x ≤ ⌊x⌋ + 1 := rhe_le_floor_add_one x
      _ ≤ ⌊y⌋ := by omega
      _ ≤ rhe y := floor_le_rhe y
  · have hfe : ⌊x⌋ = ⌊y⌋ := le_antisymm (Int.floor_le_floor h) hf
    by_cases hy : y - ⌊y⌋ < 1 / 2
    · rw [rhe_eq_floor_of_lt hy, rhe_eq_floor_of_lt (by rw [hfe]; linarith), hfe]
    · push_neg at hy
      by_cases hx : x - ⌊x⌋ < 1 / 2
      · rw [rhe_eq_floor_of_lt hx, hfe]
        exact floor_le_rhe y
      · push_neg at hx
        by_cases hy2 : (1 : ℚ) / 2 < y - ⌊y⌋
        · rw [rhe_eq_of_gt hy2]
          calc rhe x ≤ ⌊x⌋ + 1 := rhe_le_floor_add_one x
            _ = ⌊y⌋ + 1 := by rw [hfe]
        · push_neg at hy2
          have hyt : y - ⌊y⌋ = 1 / 2 := le_antisymm hy2 hy
          have hxt : x - ⌊x⌋ = 1 / 2 := by
            have h1 : x - (⌊x⌋ : ℚ) ≤ y - ⌊y⌋ := by
              rw [hfe]
              linarith
            rw [hyt] at h1
            exact le_antisymm h1 hx
          have hxy : x = y := by
            rw [hfe] at hxt
            linarith
          rw [hxy]

theorem floatR_zero : floatR 0 = 0 := by simp [floatR]

theorem qPowCastN (k : ℕ) : ((2 ^ k : ℕ) : ℚ) = (2 : ℚ) ^ (k : ℤ) := by
  push_cast
  rw [← zpow_natCast (2 : ℚ) k]

theorem qPowCastZ (k : ℕ) : ((2 ^ k : ℤ) : ℚ) = (2 : ℚ) ^ (k : ℤ) := by
  push_cast
  rw [← zpow_natCast (2 : ℚ) k]

theorem floatR_eq_of_ne (q : ℚ) (hq : q ≠ 0) :
    floatR q = (rhe (q / 2 ^ (ratLog2 q - 52)) : ℚ) * 2 ^ (ratLog2 q - 52) := by
  unfold floatR
  rw [if_neg hq]

theorem mantissa_bounds (q : ℚ) (hq : q ≠ 0) :
    (2 : ℚ) ^ (52 : ℤ) ≤ |q| / 2 ^ (ratLog2 q - 52) ∧
      |q| / 2 ^ (ratLog2 q - 52) < (2 : ℚ) ^ (53 : ℤ) := by
  obtain ⟨hlo, hup⟩ := ratLog2_spec q hq
  have hp : (0 : ℚ) < 2 ^ (ratLog2 q - 52) := zpow_pos (by norm_num) _
  constructor
  · rw [le_div_iff₀ hp, ← zpow_add₀ (by norm_num : (2 : ℚ) ≠ 0)]
    calc (2 : ℚ) ^ (52 + (ratLog2 q - 52)) = 2 ^ ratLog2 q := by ring_nf
      _ ≤ |q| := hlo
  · rw [div_lt_iff₀ hp, ← zpow_add₀ (by norm_num : (2 : ℚ) ≠ 0)]
    calc |q| < 2 ^ (ratLog2 q + 1) := hup
      _ = (2 : ℚ) ^ (53 + (ratLog2 q - 52)) := by ring_nf

theorem abs_div_zpow (q : ℚ) (e : ℤ) : |q / 2 ^ e| = |q| / 2 ^ e := by
  rw [abs_div, abs_of_pos (zpow_pos (by norm_num : (0 : ℚ) < 2) e)]

theorem floatR_err (q : ℚ) : |floatR q - q| ≤ |q| / 2 ^ (53 : ℤ) := by
  by_cases hq : q = 0
  · subst hq
    simp [floatR_zero]
  · rw [floatR_eq_of_ne q hq]
    set e : ℤ := ratLog2 q - 52 with he
    have hp : (0 : ℚ) < 2 ^ e := zpow_pos (by norm_num) _
    have hqe : q / 2 ^ e * 2 ^ e = q := div_mul_cancel₀ q (ne_of_gt hp)
    have h1 : (rhe (q / 2 ^ e) : ℚ) * 2 ^ e - q = ((rhe (q / 2 ^ e) : ℚ) - q / 2 ^ e) * 2 ^ e := by
      rw [sub_mul, hqe]
    rw [h1, abs_mul, abs_of_pos hp]
    have h2 : |(rhe (q / 2 ^ e) : ℚ) - q / 2 ^ e| ≤ 1 / 2 := rhe_abs_sub_le _
    have h3 : (2 : ℚ) ^ e ≤ |q| / 2 ^ (52 : ℤ) := by
      have hm := (mantissa_bounds q hq).1
      rw [← he] at hm
      rw [le_div_iff₀ (zpow_pos (by norm_num : (0 : ℚ) < 2) (52 : ℤ))]
      calc (2 : ℚ) ^ e * 2 ^ (52 : ℤ) = 2 ^ (52 : ℤ) * 2 ^ e := by ring
        _ ≤ |q| / 2 ^ e * 2 ^ e := by
            apply mul_le_mul_of_nonneg_right _ hp.le
            rw [le_div_iff₀ hp, ← zpow_add₀ (by norm_num : (2 : ℚ) ≠ 0)] at hm ⊢
            exact hm
        _ = |q| := div_mul_cancel₀ _ (ne_of_gt hp)
    calc |(rhe (q / 2 ^ e) : ℚ) - q / 2 ^ e| * 2 ^ e ≤ (1 / 2) * (|q| / 2 ^ (52 : ℤ)) := by
          apply mul_le_mul h2 h3 hp.le (by norm_num)
      _ = |q| / 2 ^ (53 : ℤ) := by
          have h4 : (2 : ℚ) ^ (53 : ℤ) = 2 * 2 ^ (52 : ℤ) := by
            have h5 : (53 : ℤ) = 1 + 52 := by norm_num
            rw [h5, zpow_add₀ (by norm_num : (2 : ℚ) ≠ 0), zpow_one]
          rw [h4]
          ring

theorem floatR_nonneg {q : ℚ} (hq : 0 ≤ q) : 0 ≤ floatR q := by
  have herr := floatR_err q
  rw [abs_of_nonneg hq] at herr
  have h1 : q / 2 ^ (53 : ℤ) ≤ q := by
    rw [div_le_iff₀ (zpow_pos (by norm_num : (0 : ℚ) < 2) (53 : ℤ))]
    nlinarith [zpow_pos (by norm_num : (0 : ℚ) < 2) (53 : ℤ),
      (by norm_num : (1 : ℚ) ≤ 2 ^ (53 : ℕ)),
      (zpow_natCast (2 : ℚ) 53).symm]
  rw [abs_le] at herr
  linarith [herr.1]

theorem floatR_dyadic (m t : ℤ) (hm : m.natAbs < 2 ^ 53) :
    floatR ((m : ℚ) * 2 ^ t) = (m : ℚ) * 2 ^ t := by
  by_cases hm0 : m = 0
  · subst hm0
    simp [floatR_zero]
  · set q : ℚ := (m : ℚ) * 2 ^ t with hqdef
    have h2t : (0 : ℚ) < 2 ^ t := zpow_pos (by norm_num) _
    have hmq : ((m : ℚ)) ≠ 0 := Int.cast_ne_zero.mpr hm0
    have hq : q ≠ 0 := mul_ne_zero hmq (ne_of_gt h2t)
    have habs : |q| = (m.natAbs : ℚ) * 2 ^ t := by
      rw [hqdef, abs_mul, abs_of_pos h2t, Int.cast_natAbs, Int.cast_abs]
    set e : ℤ := ratLog2 q - 52 with he
    have het : e ≤ t := by
      by_contra hc
      push_neg at hc
      have hm1 := (mantissa_bounds q hq).1
      rw [← he] at hm1
      have hp : (0 : ℚ) < 2 ^ e := zpow_pos (by norm_num) _
      have h1 : |q| / 2 ^ e = (m.natAbs : ℚ) * 2 ^ (t - e) := by
        rw [habs, mul_div_assoc, ← zpow_sub₀ (by norm_num : (2 : ℚ) ≠ 0) t e]
      have h2 : (2 : ℚ) ^ (t - e) ≤ 2 ^ (-1 : ℤ) :=
        zpow_le_zpow_right₀ (by norm_num) (by omega)
      have h3 : (m.natAbs : ℚ) < 2 ^ (53 : ℤ) := by
        have h30 : ((m.natAbs : ℕ) : ℚ) < ((2 ^ 53 : ℕ) : ℚ) := by exact_mod_cast hm
        calc (m.natAbs : ℚ) < ((2 ^ 53 : ℕ) : ℚ) := h30
          _ = (2 : ℚ) ^ (53 : ℤ) := qPowCastN 53
      have h5 : (m.natAbs : ℚ) * 2 ^ (t - e) ≤ (m.natAbs : ℚ) * 2 ^ (-1 : ℤ) :=
        mul_le_mul_of_nonneg_left h2 (by positivity)
      have h6 : (m.natAbs : ℚ) * 2 ^ (-1 : ℤ) < 2 ^ (53 : ℤ) * 2 ^ (-1 : ℤ) :=
        mul_lt_mul_of_pos_right h3 (zpow_pos (by norm_num) _)
      have h7 : (2 : ℚ) ^ (53 : ℤ) * 2 ^ (-1 : ℤ) = 2 ^ (52 : ℤ) := by
        rw [← zpow_add₀ (by norm_num : (2 : ℚ) ≠ 0)]
        norm_num
      rw [h1] at hm1
      linarith
    obtain ⟨k, hk⟩ : ∃ k : ℕ, t - e = (k : ℤ) := ⟨(t - e).toNat, by omega⟩
    have hy : q / 2 ^ e = ((m * 2 ^ k : ℤ) : ℚ) := by
      rw [hqdef, mul_div_assoc, ← zpow_sub₀ (by norm_num : (2 : ℚ) ≠ 0) t e]
      push_cast
      rw [← zpow_natCast (2 : ℚ) k, ← hk]
    rw [floatR_eq_of_ne q hq, ← he, hy, rhe_intCast, hqdef]
    calc ((m * 2 ^ k : ℤ) : ℚ) * 2 ^ e = (m : ℚ) * ((2 : ℚ) ^ (t - e) * 2 ^ e) := by
          push_cast
          rw [← zpow_natCast (2 : ℚ) k, ← hk]
          ring
      _ = (m : ℚ) * 2 ^ t := by
          rw [← zpow_add₀ (by norm_num : (2 : ℚ) ≠ 0)]
          congr 1
          ring

theorem floatR_natCast (n : ℕ) (hn : n < 2 ^ 53) : floatR (n : ℚ) = n := by
  have h := floatR_dyadic (n : ℤ) 0 (by simpa using hn)
  simpa using h

theorem floatR_mono {x y : ℚ} (hx : 0 ≤ x) (hxy : x ≤ y) : floatR x ≤ floatR y := by
  by_cases hx0 : x = 0
  · subst hx0
    rw [floatR_zero]
    exact floatR_nonneg (le_trans (le_refl 0) hxy)
  · have hxpos : 0 < x := lt_of_le_of_ne hx (Ne.symm hx0)
    have hypos : 0 < y := lt_of_lt_of_le hxpos hxy
    have hy0 : y ≠ 0 := ne_of_gt hypos
    have hax : |x| = x := abs_of_pos hxpos
    have hay : |y| = y := abs_of_pos hypos
    have hle : ratLog2 x ≤ ratLog2 y := by
      by_contra hc
      push_neg at hc
      have h1 := (ratLog2_spec x hx0).1
      have h2 := (ratLog2_spec y hy0).2
      rw [hax] at h1
      rw [hay] at h2
      have h3 : (2 : ℚ) ^ (ratLog2 y + 1) ≤ 2 ^ ratLog2 x :=
        zpow_le_zpow_right₀ (by norm_num) (by omega)
      linarith
    rcases eq_or_lt_of_le hle with heq | hlt
    · -- same binade: use monotonicity of rounding on the common grid
      rw [floatR_eq_of_ne x hx0, floatR_eq_of_ne y hy0, ← heq]
      have hp : (0 : ℚ) < 2 ^ (ratLog2 x - 52) := zpow_pos (by norm_num) _
      have hdiv : x / 2 ^ (ratLog2 x - 52) ≤ y / 2 ^ (ratLog2 x - 52) :=
        div_le_div_of_nonneg_right hxy hp.le
      have hr : rhe (x / 2 ^ (ratLog2 x - 52)) ≤ rhe (y / 2 ^ (ratLog2 x - 52)) :=
        rhe_mono hdiv
      apply mul_le_mul_of_nonneg_right _ hp.le
      exact_mod_cast hr
    · -- the binade of x is strictly below that of y
      have hxe : floatR x ≤ 2 ^ (ratLog2 x + 1) := by
        rw [floatR_eq_of_ne x hx0]
        have hp : (0 : ℚ) < 2 ^ (ratLog2 x - 52) := zpow_pos (by norm_num) _
        have hmu := (mantissa_bounds x hx0).2
        rw [hax] at hmu
        have h1 : (⌊x / 2 ^ (ratLog2 x - 52)⌋ : ℤ) < 2 ^ 53 := by
          have := Int.floor_le (x / 2 ^ (ratLog2 x - 52))
          rw [Int.lt_iff_add_one_le]
          have h2 : (⌊x / 2 ^ (ratLog2 x - 52)⌋ : ℚ) < 2 ^ (53 : ℤ) := lt_of_le_of_lt this hmu
          have h3 : ((2 : ℤ) ^ (53 : ℕ) : ℚ) = (2 : ℚ) ^ (53 : ℤ) := qPowCastZ 53
          rw [← h3] at h2
          exact_mod_cast Int.lt_iff_add_one_le.mp (by exact_mod_cast h2)
        have h4 : rhe (x / 2 ^ (ratLog2 x - 52)) ≤ 2 ^ 53 := by
          have := rhe_le_floor_add_one (x / 2 ^ (ratLog2 x - 52))
          omega
        calc (rhe (x / 2 ^ (ratLog2 x - 52)) : ℚ) * 2 ^ (ratLog2 x - 52)
            ≤ (2 : ℚ) ^ (53 : ℕ) * 2 ^ (ratLog2 x - 52) := by
              apply mul_le_mul_of_nonneg_right _ hp.le
              exact_mod_cast h4
          _ = 2 ^ (ratLog2 x + 1) := by
              rw [← zpow_natCast (2 : ℚ) 53, ← zpow_add₀ (by norm_num : (2 : ℚ) ≠ 0)]
              congr 1
              push_cast
              ring
      have hye : (2 : ℚ) ^ (ratLog2 y) ≤ floatR y := by
        rw [floatR_eq_of_ne y hy0]
        have hp : (0 : ℚ) < 2 ^ (ratLog2 y - 52) := zpow_pos (by norm_num) _
        have hml := (mantissa_bounds y hy0).1
        rw [hay] at hml
        have h1 : (2 : ℤ) ^ (52 : ℕ) ≤ ⌊y / 2 ^ (ratLog2 y - 52)⌋ := by
          apply Int.le_floor.mpr
          calc ((2 : ℤ) ^ (52 : ℕ) : ℚ) = (2 : ℚ) ^ (52 : ℤ) := qPowCastZ 52
            _ ≤ y / 2 ^ (ratLog2 y - 52) := hml
        have h2 : (2 : ℤ) ^ (52 : ℕ) ≤ rhe (y / 2 ^ (ratLog2 y - 52)) := by
          have := floor_le_rhe (y / 2 ^ (ratLog2 y - 52))
          omega
        calc (2 : ℚ) ^ ratLog2 y = (2 : ℚ) ^ (52 : ℕ) * 2 ^ (ratLog2 y - 52) := by
              rw [← zpow_natCast (2 : ℚ) 52, ← zpow_add₀ (by norm_num : (2 : ℚ) ≠ 0)]
              congr 1
              push_cast
              ring
          _ ≤ (rhe (y / 2 ^ (ratLog2 y - 52)) : ℚ) * 2 ^ (ratLog2 y - 52) := by
              apply mul_le_mul_of_nonneg_right _ hp.le
              exact_mod_cast h2
      calc floatR x ≤ 2 ^ (ratLog2 x + 1) := hxe
        _ ≤ (2 : ℚ) ^ ratLog2 y := zpow_le_zpow_right₀ (by norm_num) (by omega)
        _ ≤ floatR y := hye

theorem char_toNat_ofNat {n : ℕ} (h : n.isValidChar) : (Char.ofNat n).toNat = n := by
  rw [Char.ofNat, dif_pos h]
  rfl

theorem isPySpace_toLower (c : Char) : isPySpace (Char.toLower c) = isPySpace c := by
  simp only [Char.toLower]
  split
  · rename_i h
    have hv : (c.toNat + 32).isValidChar := Or.inl (by omega)
    have ht : (Char.ofNat (c.toNat + 32)).toNat = c.toNat + 32 := char_toNat_ofNat hv
    unfold isPySpace
    rw [ht]
    apply decide_eq_decide.mpr
    omega
  · rfl

theorem pyTrunc_of_nonneg {q : ℚ} (h : 0 ≤ q) : pyTrunc q = ⌊q⌋ := by
  unfold pyTrunc
  rw [if_pos h]

theorem pyTrunc_nonneg {q : ℚ} (h : 0 ≤ q) : 0 ≤ pyTrunc q := by
  rw [pyTrunc_of_nonneg h]
  exact Int.floor_nonneg.mpr h

theorem pyTrunc_le {q : ℚ} {n : ℤ} (hn : 0 ≤ n) (h : q ≤ (n : ℚ)) : pyTrunc q ≤ n := by
  unfold pyTrunc
  split
  · have h1 := Int.floor_le_floor h
    rwa [Int.floor_intCast] at h1
  · rename_i hq
    push_neg at hq
    have h1 : (0 : ℚ) ≤ -q := by linarith
    have h2 : 0 ≤ ⌊-q⌋ := Int.floor_nonneg.mpr h1
    omega

theorem pyTrunc_intCast (n : ℤ) : pyTrunc (n : ℚ) = n := by
  unfold pyTrunc
  split
  · exact Int.floor_intCast n
  · rename_i hq
    push_neg at hq
    have : (-(n : ℚ)) = ((-n : ℤ) : ℚ) := by push_cast; ring
    rw [this, Int.floor_intCast]
    omega

theorem pySplitAux_length_le (l : List Char) :
    ∀ acc, (pySplitAux l acc).length ≤ l.length + 1 := by
  induction l with
  | nil =>
    intro acc
    unfold pySplitAux
    split <;> simp
  | cons c cs ih =>
    intro acc
    unfold pySplitAux
    split
    · split
      · exact (ih []).trans (by simp)
      · simpa using Nat.succ_le_succ (ih [])
    · exact (ih (c :: acc)).trans (by simp)

theorem pySplit_length_le (l : List Char) : (pySplit l).length ≤ l.length + 1 :=
  pySplitAux_length_le l []

theorem splitOnDotAux_length_le (l : List Char) :
    ∀ acc, (splitOnDotAux l acc).length ≤ l.length + 1 := by
  induction l with
  | nil => intro acc; simp [splitOnDotAux]
  | cons c cs ih =>
    intro acc
    unfold splitOnDotAux
    split
    · simpa using Nat.succ_le_succ (ih [])
    · exact (ih (c :: acc)).trans (by simp)

theorem splitOnDot_length_le (l : List Char) : (splitOnDot l).length ≤ l.length + 1 :=
  splitOnDotAux_length_le l []

theorem pySplitAux_map_toLower (l : List Char) :
    ∀ acc, pySplitAux (l.map Char.toLower) (acc.map Char.toLower) =
      (pySplitAux l acc).map (List.map Char.toLower) := by
  induction l with
  | nil =>
    intro acc
    unfold pySplitAux
    rcases acc with _ | ⟨a, as⟩ <;> simp
  | cons c cs ih =>
    intro acc
    show pySplitAux (Char.toLower c :: cs.map Char.toLower) (acc.map Char.toLower) = _
    unfold pySplitAux
    rw [isPySpace_toLower]
    split
    · have hemp : ∀ a : List Char, (a.map Char.toLower = []) = (a = []) := by
        intro a
        rcases a with _ | _ <;> simp
      split
      · rename_i hacc
        rw [hemp acc] at hacc
        rw [if_pos hacc]
        exact (List.map_nil (f := Char.toLower)) ▸ ih []
      · rename_i hacc
        rw [hemp acc] at hacc
        rw [if_neg hacc, ← List.map_reverse]
        have := ih []
        simp only [List.map_nil] at this
        rw [this]
        simp
    · have := ih (c :: acc)
      simpa using this

theorem pySplit_lower (l : List Char) :
    pySplit (lower l) = (pySplit l).map (List.map Char.toLower) := by
  have := pySplitAux_map_toLower l []
  simpa [pySplit, lower] using this

theorem leadsWith_iff (pat l : List Char) :
    leadsWith pat l = true ↔ ∃ rest, l = pat ++ rest := by
  induction pat generalizing l with
  | nil => simp [leadsWith]
  | cons p ps ih =>
    rcases l with _ | ⟨c, cs⟩
    · simp [leadsWith]
    · rw [leadsWith]
      simp only [Bool.and_eq_true, decide_eq_true_eq, ih cs]
      constructor
      · rintro ⟨rfl, rest, rfl⟩
        exact ⟨rest, rfl⟩
      · rintro ⟨rest, h⟩
        simp only [List.cons_append] at h
        cases h
        exact ⟨rfl, rest, rfl⟩

theorem occursIn_iff (pat l : List Char) :
    occursIn pat l = true ↔ SubstringOf pat l := by
  induction l with
  | nil =>
    simp only [occursIn, SubstringOf, List.isEmpty_iff]
    constructor
    · rintro rfl
      exact ⟨[], [], rfl⟩
    · rintro ⟨pre, post, h⟩
      rcases pre <;> rcases pat <;> simp_all
  | cons c cs ih =>
    rw [occursIn, Bool.or_eq_true, leadsWith_iff, ih]
    constructor
    · rintro (⟨rest, hr⟩ | ⟨pre, post, hp⟩)
      · exact ⟨[], rest, by simpa using hr⟩
      · exact ⟨c :: pre, post, by simp [hp]⟩
    · rintro ⟨pre, post, h⟩
      rcases pre with _ | ⟨p, ps⟩
      · simp only [List.nil_append] at h
        exact Or.inl ⟨post, h⟩
      · rw [List.cons_append, List.cons_append] at h
        injection h with h1 h2
        exact Or.inr ⟨ps, post, h2⟩

theorem lastOk_nil_iff (prev : Option Char) :
    lastOk prev [] ↔ prevBoundary prev = true := by
  simp [lastOk]

theorem lastOk_cons (prev : Option Char) (c : Char) (pre : List Char) :
    lastOk prev (c :: pre) ↔ lastOk (some c) pre := by
  rcases pre with _ | ⟨x, xs⟩
  · simp [lastOk, prevBoundary, Bool.not_eq_true']
  · simp [lastOk, List.getLast?_cons_cons]

theorem lastOk_none_iff (pre : List Char) :
    lastOk none pre ↔ ∀ c, pre.getLast? = some c → isWordChar c = false := by
  unfold lastOk
  simp [prevBoundary]

theorem startsWithYear_iff (l : List Char) :
    startsWithYear l = true ↔
      ∃ d post, l = d ++ post ∧ IsYearChunk d ∧ BoundaryAfter post := by
  constructor
  · intro h
    rcases l with _ | ⟨c1, _ | ⟨c2, _ | ⟨c3, _ | ⟨c4, rest⟩⟩⟩⟩
    · simp [startsWithYear] at h
    · simp [startsWithYear] at h
    · simp [startsWithYear] at h
    · simp [startsWithYear] at h
    · simp only [startsWithYear, Bool.and_eq_true] at h
      obtain ⟨⟨⟨⟨h1, h2⟩, h3⟩, h4⟩, h5⟩ := h
      refine ⟨[c1, c2, c3, c4], rest, rfl, ⟨rfl, ?_⟩, ?_⟩
      · intro c hc
        simp only [List.mem_cons, List.not_mem_nil, or_false] at hc
        rcases hc with rfl | rfl | rfl | rfl <;> assumption
      · intro c hc
        rcases rest with _ | ⟨c5, rest'⟩
        · simp at hc
        · simp only [List.head?_cons, Option.some.injEq] at hc
          rw [← hc]
          simpa [Bool.not_eq_true'] using h5
  · rintro ⟨d, post, heq, ⟨hlen, hdig⟩, hb⟩
    rcases d with _ | ⟨a, _ | ⟨b, _ | ⟨c, _ | ⟨e, tail⟩⟩⟩⟩ <;> simp at hlen
    have htail : tail = [] := by simpa using hlen
    subst htail
    subst heq
    simp only [startsWithYear, List.cons_append, List.nil_append, Bool.and_eq_true]
    refine ⟨⟨⟨⟨hdig a (by simp), hdig b (by simp)⟩, hdig c (by simp)⟩, hdig e (by simp)⟩, ?_⟩
    rcases post with _ | ⟨c5, post'⟩
    · rfl
    · have := hb c5 (by simp)
      simpa [Bool.not_eq_true'] using this

theorem hasYearAux_iff (l : List Char) : ∀ prev : Option Char,
    hasYearAux prev l = true ↔
      ∃ pre d post, l = pre ++ d ++ post ∧ IsYearChunk d ∧ BoundaryAfter post ∧
        lastOk prev pre := by
  induction l with
  | nil =>
    intro prev
    simp only [hasYearAux, Bool.false_eq_true, false_iff]
    rintro ⟨pre, d, post, heq, ⟨hlen, _⟩, _, _⟩
    have : d = [] := by
      have h0 := congrArg List.length heq
      simp at h0
      omega
    subst this
    simp at hlen
  | cons c cs ih =>
    intro prev
    rw [hasYearAux, Bool.or_eq_true, Bool.and_eq_true, startsWithYear_iff, ih (some c)]
    constructor
    · rintro (⟨hprev, d, post, heq, hchunk, hb⟩ | ⟨pre', d, post, heq, hchunk, hb, hlast⟩)
      · exact ⟨[], d, post, by simpa using heq, hchunk, hb, (lastOk_nil_iff prev).mpr hprev⟩
      · exact ⟨c :: pre', d, post, by simp [heq], hchunk, hb, (lastOk_cons prev c pre').mpr hlast⟩
    · rintro ⟨pre, d, post, heq, hchunk, hb, hlast⟩
      rcases pre with _ | ⟨p, ps⟩
      · exact Or.inl ⟨(lastOk_nil_iff prev).mp hlast, d, post, by simpa using heq, hchunk, hb⟩
      · rw [List.cons_append, List.cons_append] at heq
        injection heq with h1 h2
        rw [← h1] at hlast
        exact Or.inr ⟨ps, d, post, h2, hchunk, hb, (lastOk_cons prev c ps).mp hlast⟩

theorem hasYear_iff (text : List Char) : hasYear text = true ↔ StandaloneYear text := by
  rw [hasYear, hasYearAux_iff]
  constructor
  · rintro ⟨pre, d, post, heq, hc, hb, hl⟩
    exact ⟨pre, d, post, heq, hc, (lastOk_none_iff pre).mp hl, hb⟩
  · rintro ⟨pre, d, post, heq, hc, hl, hb⟩
    exact ⟨pre, d, post, heq, hc, hb, (lastOk_none_iff pre).mpr hl⟩

theorem dedup_filter_toFinset (l1 l2 : List (List Char)) :
    (l1.dedup.filter (fun w => w ∈ l2.dedup)).toFinset = l1.toFinset ∩ l2.toFinset := by
  ext x
  simp [List.mem_filter, List.mem_dedup]

theorem dedup_filter_length (l1 l2 : List (List Char)) :
    (l1.dedup.filter (fun w => w ∈ l2.dedup)).length = (l1.toFinset ∩ l2.toFinset).card := by
  have hnd : (l1.dedup.filter (fun w => w ∈ l2.dedup)).Nodup := (List.nodup_dedup l1).filter _
  rw [← List.toFinset_card_of_nodup hnd, dedup_filter_toFinset]

theorem dedup_length_toFinset (l : List (List Char)) :
    l.dedup.length = l.toFinset.card := (List.card_toFinset l).symm

theorem dedup_filter_length_le (l1 l2 : List (List Char)) :
    (l1.dedup.filter (fun w => w ∈ l2.dedup)).length ≤ l2.dedup.length := by
  rw [dedup_filter_length, dedup_length_toFinset]
  exact Finset.card_le_card (Finset.inter_subset_right)

theorem div_pow53_le_one {q : ℚ} (_h0 : 0 ≤ q) (h : q ≤ 2 ^ 53) : q / 2 ^ 53 ≤ 1 := by
  rw [div_le_one (by norm_num : (0 : ℚ) < 2 ^ 53)]
  exact h

theorem readChainErr (q : ℚ) (h0 : 0 ≤ q) (hB : q ≤ 2 ^ 33) :
    |floatR (100 - floatR (floatR (floatR q - 15) * 2)) - (130 - 2 * q)| ≤
      (8 * q + 201) / 2 ^ 53 := by
  have hq53 : q / 2 ^ 53 ≤ 1 := div_pow53_le_one h0 (by linarith [(by norm_num : (2:ℚ)^33 ≤ 2^53)])
  have ea : |floatR q - q| ≤ q / 2 ^ 53 := by
    have h := floatR_err q
    rw [abs_of_nonneg h0] at h
    calc |floatR q - q| ≤ q / 2 ^ (53 : ℤ) := h
      _ = q / 2 ^ 53 := by norm_num
  set a := floatR q with ha
  have ea2 : -(q / 2 ^ 53) ≤ a - q ∧ a - q ≤ q / 2 ^ 53 := abs_le.mp ea
  have ha_abs : |a - 15| ≤ q + 16 := by
    rw [abs_le]
    constructor <;> linarith
  have eu : |floatR (a - 15) - (a - 15)| ≤ (q + 16) / 2 ^ 53 := by
    have h := floatR_err (a - 15)
    calc |floatR (a - 15) - (a - 15)| ≤ |a - 15| / 2 ^ (53 : ℤ) := h
      _ = |a - 15| / 2 ^ 53 := by norm_num
      _ ≤ (q + 16) / 2 ^ 53 := div_le_div_of_nonneg_right ha_abs (by positivity)
  set u := floatR (a - 15) with hu
  have eu2 := abs_le.mp eu
  have hq16 : (q + 16) / 2 ^ 53 ≤ 1 := div_pow53_le_one (by linarith) (by nlinarith [(by norm_num : (2:ℚ)^33 + 16 ≤ 2^53)])
  have hu_abs : |u * 2| ≤ 2 * q + 34 := by
    rw [abs_mul, abs_of_nonneg (by norm_num : (0:ℚ) ≤ 2)]
    have h1 := abs_le.mp ha_abs
    have h2 : |u| ≤ q + 17 := by
      rw [abs_le]
      constructor <;> linarith
    linarith [abs_le.mp h2]
  have ev : |floatR (u * 2) - u * 2| ≤ (2 * q + 34) / 2 ^ 53 := by
    have h := floatR_err (u * 2)
    calc |floatR (u * 2) - u * 2| ≤ |u * 2| / 2 ^ (53 : ℤ) := h
      _ = |u * 2| / 2 ^ 53 := by norm_num
      _ ≤ (2 * q + 34) / 2 ^ 53 := div_le_div_of_nonneg_right hu_abs (by positivity)
  set v := floatR (u * 2) with hv
  have ev2 := abs_le.mp ev
  have hq34 : (2 * q + 34) / 2 ^ 53 ≤ 1 := div_pow53_le_one (by linarith) (by nlinarith [(by norm_num : 2 * (2:ℚ)^33 + 34 ≤ 2^53)])
  have hw_abs : |100 - v| ≤ 2 * q + 135 := by
    have h1 := abs_le.mp hu_abs
    rw [abs_le]
    constructor <;> linarith
  have ew : |floatR (100 - v) - (100 - v)| ≤ (2 * q + 135) / 2 ^ 53 := by
    have h := floatR_err (100 - v)
    calc |floatR (100 - v) - (100 - v)| ≤ |100 - v| / 2 ^ (53 : ℤ) := h
      _ = |100 - v| / 2 ^ 53 := by norm_num
      _ ≤ (2 * q + 135) / 2 ^ 53 := div_le_div_of_nonneg_right hw_abs (by positivity)
  have ew2 := abs_le.mp ew
  rw [abs_le]
  constructor <;> linarith

theorem pyTrunc_zero : pyTrunc 0 = 0 := by
  rw [pyTrunc_of_nonneg le_rfl]
  exact Int.floor_zero

theorem truncClampEq {d e : ℚ} (k : ℤ) (hd1 : (k : ℚ) < d) (hd2 : d < k + 1)
    (he1 : (k : ℚ) < e) (he2 : e < k + 1) :
    pyTrunc (max 0 (min 100 d)) = pyTrunc (max 0 (min 100 e)) := by
  by_cases hk1 : k ≤ -1
  · have hdk : d < 0 := by
      have : (k : ℚ) + 1 ≤ 0 := by exact_mod_cast (by omega : k + 1 ≤ 0)
      linarith
    have hek : e < 0 := by
      have : (k : ℚ) + 1 ≤ 0 := by exact_mod_cast (by omega : k + 1 ≤ 0)
      linarith
    rw [min_eq_right (by linarith : d ≤ 100), min_eq_right (by linarith : e ≤ 100),
      max_eq_left hdk.le, max_eq_left hek.le, pyTrunc_zero]
  · by_cases hk2 : 100 ≤ k
    · have hd100 : (100 : ℚ) ≤ d := by
        have : (100 : ℚ) ≤ (k : ℚ) := by exact_mod_cast hk2
        linarith
      have he100 : (100 : ℚ) ≤ e := by
        have : (100 : ℚ) ≤ (k : ℚ) := by exact_mod_cast hk2
        linarith
      rw [min_eq_left hd100, min_eq_left he100]
    · push_neg at hk1 hk2
      have hk0 : 0 ≤ k := by omega
      have hk99 : k ≤ 99 := by omega
      have hd0 : 0 < d := by
        have : (0 : ℚ) ≤ (k : ℚ) := by exact_mod_cast hk0
        linarith
      have he0 : 0 < e := by
        have : (0 : ℚ) ≤ (k : ℚ) := by exact_mod_cast hk0
        linarith
      have hd100 : d < 100 := by
        have : (k : ℚ) + 1 ≤ 100 := by exact_mod_cast (by omega : k + 1 ≤ 100)
        linarith
      have he100 : e < 100 := by
        have : (k : ℚ) + 1 ≤ 100 := by exact_mod_cast (by omega : k + 1 ≤ 100)
        linarith
      rw [min_eq_right hd100.le, min_eq_right he100.le,
        max_eq_right hd0.le, max_eq_right he0.le,
        pyTrunc_of_nonneg hd0.le, pyTrunc_of_nonneg he0.le]
      have h1 : ⌊d⌋ = k := by
        rw [Int.floor_eq_iff]
        exact ⟨hd1.le, by push_cast; linarith⟩
      have h2 : ⌊e⌋ = k := by
        rw [Int.floor_eq_iff]
        exact ⟨he1.le, by push_cast; linarith⟩
      rw [h1, h2]

/-- C4: `_analyze_sentiment` returns a `tone_score` equal to
`min(100, (p - n) * 10 + 70)`, where `p` counts the seven fixed positive
words and `n` the four fixed weak phrases occurring as substrings of the
lowercased text, and its `overall_tone` is `"Strong"` exactly when
`p > n`. -/
theorem analyze_sentiment_spec (text : List Char) :
    (_analyze_sentiment text).positive_indicators =
        (positive_words.filter (fun w => occursIn w (lower text))).length ∧
    (_analyze_sentiment text).weak_indicators =
        (weak_words.filter (fun w => occursIn w (lower text))).length ∧
    (∀ w : List Char, occursIn w (lower text) = true ↔ SubstringOf w (lower text)) ∧
    (_analyze_sentiment text).tone_score =
      min 100 ((((_analyze_sentiment text).positive_indicators : ℤ) -
        ((_analyze_sentiment text).weak_indicators : ℤ)) * 10 + 70) ∧
    ((_analyze_sentiment text).overall_tone = "Strong" ↔
      (_analyze_sentiment text).positive_indicators >
        (_analyze_sentiment text).weak_indicators) := by
  refine ⟨rfl, rfl, fun w => occursIn_iff w (lower text), rfl, ?_⟩
  simp only [_analyze_sentiment]
  split
  · rename_i hgt
    simpa using hgt
  · rename_i hle
    constructor
    · intro hcon
      exact absurd hcon (by decide)
    · intro hgt
      exact absurd hgt hle

theorem analyze_sentiment_spec_witness :
    SubstringOf "led".toList (lower "Led the team in 2020".toList) := by
  have h := analyze_sentiment_spec "Led the team in 2020".toList
  exact (h.2.2.1 "led".toList).mp (by with_unfolding_all decide)

/-- C6 amended: `_get_industry_insights` splits the industry keyword list
into matched and missing parts that are disjoint, order preserving, and
together a permutation of the keyword list; its `industry_score` is the
binary64 evaluation of `(matched / total) * 100` for a known industry and
`0` (with empty lists) for an unrecognized one. -/
theorem industry_insights_spec (industry : String) (analysis : Analysis) :
    (∀ x ∈ (_get_industry_insights industry analysis).matched_industry_keywords,
        x ∉ (_get_industry_insights industry analysis).missing_industry_keywords) ∧
    List.Sublist (_get_industry_insights industry analysis).matched_industry_keywords
      (industry_keywords industry) ∧
    List.Sublist (_get_industry_insights industry analysis).missing_industry_keywords
      (industry_keywords industry) ∧
    List.Perm ((_get_industry_insights industry analysis).matched_industry_keywords ++
      (_get_industry_insights industry analysis).missing_industry_keywords)
      (industry_keywords industry) ∧
    (_get_industry_insights industry analysis).industry_score =
      (if industry_keywords industry = [] then 0
       else floatR (floatR
         (((_get_industry_insights industry analysis).matched_industry_keywords.length : ℚ) /
           ((industry_keywords industry).length : ℚ)) * 100)) ∧
    (industry ∉ ["Technology", "Healthcare", "Finance", "Marketing", "Data Science"] →
      (_get_industry_insights industry analysis).matched_industry_keywords = [] ∧
      (_get_industry_insights industry analysis).missing_industry_keywords = [] ∧
      (_get_industry_insights industry analysis).industry_score = 0) := by
  refine ⟨?_, ?_, ?_, ?_, rfl, ?_⟩
  · intro x hx hx'
    simp only [_get_industry_insights, List.mem_filter, decide_eq_true_eq] at hx hx'
    exact hx'.2 hx.2
  · exact List.filter_sublist _
  · exact List.filter_sublist _
  · simp only [_get_industry_insights]
    have hpred : (fun kw : String => decide (kw ∉ analysis.matched_keywords)) =
        (fun kw : String => !(decide (kw ∈ analysis.matched_keywords))) := by
      funext kw
      exact decide_not
    rw [hpred]
    exact List.filter_append_perm _ _
  · intro hni
    simp only [List.mem_cons, List.not_mem_nil, or_false, not_or] at hni
    obtain ⟨h1, h2, h3, h4, h5⟩ := hni
    have hkw : industry_keywords industry = [] := by
      simp [industry_keywords, h1, h2, h3, h4, h5]
    refine ⟨?_, ?_, ?_⟩ <;> simp [_get_industry_insights, hkw]

theorem industry_insights_spec_witness :
    List.Perm ((_get_industry_insights "Technology" ⟨["agile"]⟩).matched_industry_keywords ++
      (_get_industry_insights "Technology" ⟨["agile"]⟩).missing_industry_keywords)
      (industry_keywords "Technology") :=
  (industry_insights_spec "Technology" ⟨["agile"]⟩).2.2.2.1

/-- C6 counterexample: for the Technology industry with exactly one
matched keyword the stored score is the binary64 value, which differs
from the exact (matched / total) * 100 = 100/7. -/
theorem industry_score_exact_cex :
    (_get_industry_insights "Technology" ⟨["agile"]⟩).industry_score ≠
      (((_get_industry_insights "Technology" ⟨["agile"]⟩).matched_industry_keywords.length : ℚ) /
        ((industry_keywords "Technology").length : ℚ)) * 100 := by
  with_unfolding_all decide

/-- C8: code bug in the quick-ATS conjunct — `calculate_keyword_density`,
`_calculate_readability` and `_calculate_uniqueness` are deterministic
functions of their text arguments alone (equal inputs give equal returned
scores, with no other dependence), and `calculate_quick_ats_score` is
deterministic only in its failure: on equal inputs the outcomes agree, but
that outcome is always the `NameError` raised by the unbound global `re`,
so the function returns no score of which "the returned scores are equal"
could hold. -/
theorem heuristics_deterministic (r1 j1 t1 r2 j2 t2 : List Char)
    (hr : r1 = r2) (hj : j1 = j2) (ht : t1 = t2) :
    calculate_quick_ats_score r1 = calculate_quick_ats_score r2 ∧
    calculate_quick_ats_score r1 = Except.error (PyError.nameError "re") ∧
    calculate_keyword_density r1 j1 = calculate_keyword_density r2 j2 ∧
    _calculate_readability t1 = _calculate_readability t2 ∧
    _calculate_uniqueness t1 = _calculate_uniqueness t2 := by
  subst hr
  subst hj
  subst ht
  exact ⟨rfl, rfl, rfl, rfl, rfl⟩

theorem heuristics_deterministic_witness :
    calculate_quick_ats_score "r".toList = calculate_quick_ats_score "r".toList ∧
    calculate_quick_ats_score "r".toList = Except.error (PyError.nameError "re") ∧
    calculate_keyword_density "r".toList "j".toList =
      calculate_keyword_density "r".toList "j".toList ∧
    _calculate_readability "t".toList = _calculate_readability "t".toList ∧
    _calculate_uniqueness "t".toList = _calculate_uniqueness "t".toList :=
  heuristics_deterministic "r".toList "j".toList "t".toList
    "r".toList "j".toList "t".toList rfl rfl rfl

/-- C9: code bug — `calculate_quick_ats_score` never returns at all: the
module never imports `re`, so every call raises `NameError` and no call
returns a value, let alone one that is at least 45.  The body's intended
arithmetic, `quick_ats_score_body`, is indeed bounded below by 45 (the four
deductions total at most 55, so the `max(0, score)` clamp never fires), but
the program never reaches the `return` that would deliver it. -/
theorem quick_ats_never_returns (resume_text : List Char) :
    (¬ ∃ v : ℤ, calculate_quick_ats_score resume_text = Except.ok v) ∧
    45 ≤ quick_ats_score_body resume_text := by
  constructor
  · rintro ⟨v, hv⟩
    simp [calculate_quick_ats_score, module_binds_re] at hv
  · simp only [quick_ats_score_body]
    split_ifs <;> norm_num [le_max_iff]

theorem floatR_one : floatR 1 = 1 := by
  have h := floatR_natCast 1 (by norm_num)
  simpa using h

theorem floatR_hundred : floatR 100 = 100 := by
  have h := floatR_natCast 100 (by norm_num)
  simpa using h

/-- C7: code bug in the quick-ATS conjunct — `calculate_keyword_density`
and `_calculate_readability` return integers in `[0, 100]`, but
`calculate_quick_ats_score` returns no integer at all: the module never
imports `re`, so every call raises `NameError` instead of returning a value
in `[0, 100]` (the body's arithmetic, were `re` bound, would stay in range:
`0 ≤ quick_ats_score_body ≤ 100`). -/
theorem scores_in_range (resume_text job_description text : List Char) :
    ((calculate_quick_ats_score resume_text).isOk = false ∧
      0 ≤ quick_ats_score_body resume_text ∧
      quick_ats_score_body resume_text ≤ 100) ∧
    (0 ≤ calculate_keyword_density resume_text job_description ∧
      calculate_keyword_density resume_text job_description ≤ 100) ∧
    (0 ≤ _calculate_readability text ∧ _calculate_readability text ≤ 100) := by
  refine ⟨⟨rfl, ?_, ?_⟩, ⟨?_, ?_⟩, ⟨?_, ?_⟩⟩
  · simp only [quick_ats_score_body]
    exact le_max_left 0 _
  · simp only [quick_ats_score_body]
    split_ifs <;> norm_num [max_le_iff]
  · simp only [calculate_keyword_density]
    split
    · norm_num
    · apply pyTrunc_nonneg
      apply floatR_nonneg
      apply mul_nonneg _ (by norm_num)
      apply floatR_nonneg
      positivity
  · simp only [calculate_keyword_density]
    split
    · norm_num
    · rename_i hne
      apply pyTrunc_le (by norm_num)
      have hjpos : 0 < (pySplit (lower job_description)).dedup.length :=
        List.length_pos.mpr hne
      have hc_le : ((pySplit (lower resume_text)).dedup.filter
          (fun w => w ∈ (pySplit (lower job_description)).dedup)).length ≤
          (pySplit (lower job_description)).dedup.length :=
        dedup_filter_length_le _ _
      have hq0 : (0 : ℚ) ≤
          (((pySplit (lower resume_text)).dedup.filter
            (fun w => w ∈ (pySplit (lower job_description)).dedup)).length : ℚ) /
          (((pySplit (lower job_description)).dedup.length : ℕ) : ℚ) := by positivity
      have hq1 : (((pySplit (lower resume_text)).dedup.filter
            (fun w => w ∈ (pySplit (lower job_description)).dedup)).length : ℚ) /
          (((pySplit (lower job_description)).dedup.length : ℕ) : ℚ) ≤ 1 := by
        rw [div_le_one (by exact_mod_cast hjpos)]
        exact_mod_cast hc_le
      have h1 : floatR ((((pySplit (lower resume_text)).dedup.filter
            (fun w => w ∈ (pySplit (lower job_description)).dedup)).length : ℚ) /
          (((pySplit (lower job_description)).dedup.length : ℕ) : ℚ)) ≤ 1 := by
        have h := floatR_mono hq0 hq1
        rwa [floatR_one] at h
      have h0 : (0 : ℚ) ≤ floatR ((((pySplit (lower resume_text)).dedup.filter
            (fun w => w ∈ (pySplit (lower job_description)).dedup)).length : ℚ) /
          (((pySplit (lower job_description)).dedup.length : ℕ) : ℚ)) :=
        floatR_nonneg hq0
      have h2 := floatR_mono (mul_nonneg h0 (by norm_num : (0:ℚ) ≤ 100))
        (by nlinarith : floatR ((((pySplit (lower resume_text)).dedup.filter
            (fun w => w ∈ (pySplit (lower job_description)).dedup)).length : ℚ) /
          (((pySplit (lower job_description)).dedup.length : ℕ) : ℚ)) * 100 ≤ 100)
      rw [floatR_hundred] at h2
      exact_mod_cast h2
  · simp only [_calculate_readability]
    exact pyTrunc_nonneg (le_max_left 0 _)
  · simp only [_calculate_readability]
    apply pyTrunc_le (by norm_num)
    push_cast
    exact max_le (by norm_num) (min_le_left _ _)

/-- C10: on a text with at least one word, the keyword density of the
text against itself is exactly 100. -/
theorem keyword_density_self (t : List Char) (h : pySplit t ≠ []) :
    calculate_keyword_density t t = 100 := by
  have hlow : pySplit (lower t) ≠ [] := by
    rw [pySplit_lower]
    simpa using h
  have hd : (pySplit (lower t)).dedup ≠ [] := by
    intro hc
    apply hlow
    rwa [← List.dedup_eq_nil]
  simp only [calculate_keyword_density]
  rw [if_neg hd]
  have hfilter : (pySplit (lower t)).dedup.filter
      (fun w => w ∈ (pySplit (lower t)).dedup) = (pySplit (lower t)).dedup := by
    apply List.filter_eq_self.mpr
    intro a ha
    exact decide_eq_true ha
  rw [hfilter]
  have hpos : 0 < (pySplit (lower t)).dedup.length := List.length_pos.mpr hd
  have hne0 : (((pySplit (lower t)).dedup.length : ℕ) : ℚ) ≠ 0 := by
    exact_mod_cast Nat.pos_iff_ne_zero.mp hpos
  rw [div_self hne0, floatR_one, one_mul, floatR_hundred]
  have h100 : ((100 : ℤ) : ℚ) = (100 : ℚ) := by norm_num
  rw [← h100, pyTrunc_intCast]

theorem keyword_density_self_witness :
    pySplit "a".toList ≠ [] ∧ calculate_keyword_density "a".toList "a".toList = 100 :=
  ⟨by with_unfolding_all decide,
    keyword_density_self "a".toList (by with_unfolding_all decide)⟩

/-- C2 amended: `calculate_keyword_density` computes the truncation of the
binary64 evaluation of (distinct common words / distinct job-description
words) * 100, and 0 when the job description has no words. -/
theorem keyword_density_eq_float (resume_text job_description : List Char) :
    calculate_keyword_density resume_text job_description =
      keywordDensityFloat resume_text job_description := by
  simp only [calculate_keyword_density, keywordDensityFloat]
  have hcard : (pySplit (lower job_description)).dedup.length =
      (pySplit (lower job_description)).toFinset.card := dedup_length_toFinset _
  have hcommon : ((pySplit (lower resume_text)).dedup.filter
      (fun w => w ∈ (pySplit (lower job_description)).dedup)).length =
      ((pySplit (lower resume_text)).toFinset ∩ (pySplit (lower job_description)).toFinset).card :=
    dedup_filter_length _ _
  by_cases hd : (pySplit (lower job_description)).dedup = []
  · rw [if_pos hd, if_pos]
    rw [← hcard, hd]
    rfl
  · have hlen : (pySplit (lower job_description)).dedup.length ≠ 0 := by
      simpa [List.length_eq_zero] using hd
    rw [if_neg hd, if_neg (by rw [← hcard]; exact hlen)]
    rw [hcommon, hcard]

/-- C2 counterexample: with 29 common words out of 50, the code returns
`int(29/50*100)` = 57 in binary64 arithmetic, while the exact truncation
of (29/50)*100 = 58 is 58. -/
theorem keyword_density_exact_cex :
    calculate_keyword_density cexResume cexJD = 57 ∧
      keywordDensitySpec cexResume cexJD = 58 :=
  ⟨by with_unfolding_all decide, by with_unfolding_all decide⟩

/-- C5 amended: `_calculate_uniqueness` computes
`min(100, int((u / t) * 100 * 1.5))` in binary64 arithmetic for a text
with `t ≥ 1` words and `u` distinct lowercased words, and 0 when the text
has no words. -/
theorem uniqueness_eq_float (text : List Char) :
    _calculate_uniqueness text = uniquenessFloat text := by
  simp only [_calculate_uniqueness, uniquenessFloat]
  have hu : (pySplit (lower text)).dedup.length =
      (pySplit (lower text)).toFinset.card := dedup_length_toFinset _
  by_cases ht : (pySplit text).length = 0
  · rw [if_pos ht, if_neg (by omega : ¬((pySplit text).length > 0))]
    rw [zero_mul, floatR_zero, pyTrunc_zero]
    norm_num
  · rw [if_neg ht, if_pos (by omega : (pySplit text).length > 0), hu]

/-- C5 counterexample: on the text `"a a a"` (3 words, 1 distinct) the code
returns `min(100, int(1/3*100*1.5))` = 49 in binary64 arithmetic, while
the exact value (1/3)*100*1.5 = 50 truncates to 50. -/
theorem uniqueness_exact_cex :
    _calculate_uniqueness "a a a".toList = 49 ∧
      uniquenessSpec "a a a".toList = 50 :=
  ⟨by with_unfolding_all decide, by with_unfolding_all decide⟩

/-- For texts of at most `2^48` characters, the intended body arithmetic
`quick_ats_score_body` equals the deduction formula (start from 100; deduct
20, 15, 10, 10 for the four conditions, the last read as exact "more than
10% of the length"; clamp at 0), and the scanner condition for the 15-point
deduction is exactly the presence of a standalone four-digit number. -/
theorem quick_ats_score_spec (text : List Char) (h : text.length ≤ 2 ^ 48) :
    quick_ats_score_body text = quickScoreSpec text ∧
      (hasYear text = true ↔ StandaloneYear text) := by
  refine ⟨?_, hasYear_iff text⟩
  have hth : ((specialCharCount text : ℚ) >
      floatR (floatR (text.length : ℚ) * floatR (1 / 10))) ↔
      (10 * specialCharCount text > text.length) := by
    have hd1 : (1 : ℚ) / 10 ≤ floatR (1 / 10) := by with_unfolding_all decide
    have hd2 : floatR (1 / 10) ≤ 1 / 10 + 1 / (5 * 2 ^ 55) := by with_unfolding_all decide
    have hLfix : floatR ((text.length : ℚ)) = (text.length : ℚ) :=
      floatR_natCast _ (lt_of_le_of_lt h (by norm_num))
    rw [hLfix]
    have hL0 : (0 : ℚ) ≤ (text.length : ℚ) := by positivity
    have hLB : (text.length : ℚ) ≤ 2 ^ 48 := by exact_mod_cast h
    have hc0 : (0 : ℚ) ≤ (specialCharCount text : ℚ) := by positivity
    have hcL : (specialCharCount text : ℚ) ≤ (text.length : ℚ) := by
      exact_mod_cast List.length_filter_le _ text
    have hx0 : (0 : ℚ) ≤ (text.length : ℚ) * floatR (1 / 10) :=
      mul_nonneg hL0 (le_trans (by norm_num) hd1)
    have hx_ub : (text.length : ℚ) * floatR (1 / 10) ≤
        (text.length : ℚ) / 10 + (text.length : ℚ) / (5 * 2 ^ 55) := by
      calc (text.length : ℚ) * floatR (1 / 10)
          ≤ (text.length : ℚ) * (1 / 10 + 1 / (5 * 2 ^ 55)) :=
            mul_le_mul_of_nonneg_left hd2 hL0
        _ = (text.length : ℚ) / 10 + (text.length : ℚ) / (5 * 2 ^ 55) := by ring
    have hx_lb : (text.length : ℚ) / 10 ≤ (text.length : ℚ) * floatR (1 / 10) := by
      calc (text.length : ℚ) / 10 = (text.length : ℚ) * (1 / 10) := by ring
        _ ≤ (text.length : ℚ) * floatR (1 / 10) := mul_le_mul_of_nonneg_left hd1 hL0
    have herr := floatR_err ((text.length : ℚ) * floatR (1 / 10))
    rw [abs_of_nonneg hx0] at herr
    have herr2 := abs_le.mp herr
    have hsmall1 : (text.length : ℚ) / (5 * 2 ^ 55) ≤ 1 / 640 := by
      rw [div_le_div_iff₀ (by norm_num) (by norm_num)]
      nlinarith
    have hsmall2 : ((text.length : ℚ) * floatR (1 / 10)) / 2 ^ (53 : ℤ) ≤ 1 / 32 := by
      have he : ((2 : ℚ) ^ (53 : ℤ)) = 2 ^ (53 : ℕ) := by norm_num
      rw [he, div_le_div_iff₀ (by norm_num) (by norm_num)]
      nlinarith
    constructor
    · intro hgt
      by_contra hc10
      push_neg at hc10
      have hcle : (specialCharCount text : ℚ) ≤ (text.length : ℚ) / 10 := by
        rw [le_div_iff₀ (by norm_num)]
        exact_mod_cast (by omega : specialCharCount text * 10 ≤ text.length)
      have hcfix : floatR ((specialCharCount text : ℚ)) = (specialCharCount text : ℚ) :=
        floatR_natCast _ (lt_of_le_of_lt (le_trans (List.length_filter_le _ text) h) (by norm_num))
      have hm := floatR_mono hc0 (le_trans hcle hx_lb)
      rw [hcfix] at hm
      exact absurd hgt (not_lt.mpr hm)
    · intro h10
      have hcge : (text.length : ℚ) / 10 + 1 / 10 ≤ (specialCharCount text : ℚ) := by
        have h1 : (text.length : ℕ) + 1 ≤ 10 * specialCharCount text := h10
        have h2 : ((text.length : ℕ) : ℚ) + 1 ≤ 10 * (specialCharCount text : ℚ) := by
          exact_mod_cast h1
        linarith
      have hnum : (1 : ℚ) / 640 + 1 / 32 < 1 / 10 := by norm_num
      have hfl : floatR ((text.length : ℚ) * floatR (1 / 10)) < (specialCharCount text : ℚ) := by
        have h1 : floatR ((text.length : ℚ) * floatR (1 / 10)) ≤
            (text.length : ℚ) * floatR (1 / 10) +
              ((text.length : ℚ) * floatR (1 / 10)) / 2 ^ (53 : ℤ) := by
          linarith [herr2.2]
        linarith
      exact hfl
  simp only [quick_ats_score_body, quickScoreSpec]
  have hite : ∀ a b : ℤ,
      (if ((specialCharCount text : ℚ) >
          floatR (floatR (text.length : ℚ) * floatR (1 / 10))) then a else b) =
        (if (10 * specialCharCount text > text.length) then a else b) :=
    fun a b => if_congr hth rfl rfl
  rw [hite]
  by_cases h1 : text.length < 500 <;> by_cases h2 : hasYear text = true <;>
    by_cases h3 : '@' ∈ text <;> by_cases h4 : 10 * specialCharCount text > text.length <;>
    simp only [h1, h2, h3, h4, if_true, if_false, ite_true, ite_false, if_pos, if_neg,
      not_false_iff, not_true] <;>
    simp [h1, h2, h3, h4]

theorem quick_ats_score_spec_witness :
    "a resume".toList.length ≤ 2 ^ 48 ∧
      quick_ats_score_body "a resume".toList = quickScoreSpec "a resume".toList :=
  ⟨by with_unfolding_all decide,
    (quick_ats_score_spec "a resume".toList (by with_unfolding_all decide)).1⟩

/-- C1: code bug — `enhanced_app_integration.py` never imports `re`, so
`calculate_quick_ats_score` raises `NameError: name 're' is not defined` at
its first `re.search` call (line 551) on every input and never reaches
`return max(0, score)`: no call returns a score.  The deduction rules the
claim states are the body's intended arithmetic (`quick_ats_score_body`,
shown by `quick_ats_score_spec` to match the claim formula), but the
program never computes them past the length deduction. -/
theorem quick_ats_raises_NameError (resume_text : List Char) :
    calculate_quick_ats_score resume_text =
      Except.error (PyError.nameError "re") := rfl

theorem natAbs_lt_two_pow_53 {m : ℕ} (hm : m ≤ 2 ^ 34) {z : ℤ}
    (hz : z.natAbs ≤ m + 140) : z.natAbs < 2 ^ 53 := by
  have h2 : m + 140 < 2 ^ 53 := by
    have h3 : (2 : ℕ) ^ 34 + 140 < 2 ^ 53 := by norm_num
    linarith
  exact lt_of_le_of_lt hz h2

/-- C3: for texts of at most `2^32` characters, `_calculate_readability`
returns the truncation of `100 - (w/s - 15) * 2` clamped to `[0, 100]`,
where `w` is the word count and `s = max(1, number of '.'-fragments)`:
the binary64 rounding never moves the value across an integer or a clamp
boundary. -/
theorem readability_spec (text : List Char) (h : text.length ≤ 2 ^ 32) :
    _calculate_readability text =
      pyTrunc (max 0 (min 100 (100 - (((pySplit text).length : ℚ) /
        ((max (splitOnDot text).length 1 : ℕ) : ℚ) - 15) * 2))) := by
  simp only [_calculate_readability]
  set w : ℕ := (pySplit text).length with hw
  set s : ℕ := max (splitOnDot text).length 1 with hs
  have hs1 : 1 ≤ s := le_max_right _ 1
  have hpow : (2 : ℕ) ^ 32 + 1 ≤ 2 ^ 33 := by norm_num
  have hwB : w ≤ 2 ^ 33 := by
    have h1 := pySplit_length_le text
    rw [← hw] at h1
    linarith
  have hsB : s ≤ 2 ^ 33 := by
    have h1 := splitOnDot_length_le text
    have h2 : s ≤ (text.length + 1) ⊔ 1 := by
      rw [hs]
      exact max_le_max h1 le_rfl
    have h3 : (text.length + 1) ⊔ 1 = text.length + 1 := by omega
    rw [h3] at h2
    linarith
  set q : ℚ := (w : ℚ) / ((s : ℕ) : ℚ) with hq
  have hspos : (0 : ℚ) < ((s : ℕ) : ℚ) := by
    have : 0 < s := hs1
    exact_mod_cast this
  have hq0 : 0 ≤ q := by
    rw [hq]
    positivity
  have hqB : q ≤ 2 ^ 33 := by
    have h1 : q ≤ (w : ℚ) := by
      rw [hq]
      apply div_le_self (by positivity)
      exact_mod_cast hs1
    have h2 : (w : ℚ) ≤ 2 ^ 33 := by exact_mod_cast hwB
    linarith
  by_cases hdvd : s ∣ 2 * w
  · obtain ⟨m, hm⟩ := hdvd
    have hmB : m ≤ 2 ^ 34 := by
      have h1 : m ≤ s * m := Nat.le_mul_of_pos_left m (by omega)
      have h2 : (2 : ℕ) * 2 ^ 33 = 2 ^ 34 := by norm_num
      have h3 : 2 * w ≤ 2 ^ 34 := by
        calc 2 * w ≤ 2 * 2 ^ 33 := by linarith
          _ = 2 ^ 34 := h2
      linarith [hm ▸ h1]
    have hq_eq : q = (m : ℚ) / 2 := by
      rw [hq, div_eq_div_iff (ne_of_gt hspos) (by norm_num : (2 : ℚ) ≠ 0)]
      exact_mod_cast (by linarith [hm] : w * 2 = m * s)
    have hfix1 : floatR q = q := by
      rw [hq_eq]
      have he : ((m : ℤ) : ℚ) * 2 ^ (-1 : ℤ) = (m : ℚ) / 2 := by
        rw [zpow_neg, zpow_one]
        push_cast
        ring
      rw [← he]
      exact floatR_dyadic (m : ℤ) (-1) (natAbs_lt_two_pow_53 hmB (by omega))
    have hfix2 : floatR (q - 15) = q - 15 := by
      rw [hq_eq]
      have he : (m : ℚ) / 2 - 15 = (((m : ℤ) - 30 : ℤ) : ℚ) * 2 ^ (-1 : ℤ) := by
        rw [zpow_neg, zpow_one]
        push_cast
        ring
      rw [he]
      exact floatR_dyadic _ _ (natAbs_lt_two_pow_53 hmB (by omega))
    have hfix3 : floatR ((q - 15) * 2) = (q - 15) * 2 := by
      rw [hq_eq]
      have he : ((m : ℚ) / 2 - 15) * 2 = (((m : ℤ) - 30 : ℤ) : ℚ) * 2 ^ (0 : ℤ) := by
        rw [zpow_zero]
        push_cast
        ring
      rw [he]
      exact floatR_dyadic _ _ (natAbs_lt_two_pow_53 hmB (by omega))
    have hfix4 : floatR (100 - (q - 15) * 2) = 100 - (q - 15) * 2 := by
      rw [hq_eq]
      have he : 100 - ((m : ℚ) / 2 - 15) * 2 = ((130 - (m : ℤ) : ℤ) : ℚ) * 2 ^ (0 : ℤ) := by
        rw [zpow_zero]
        push_cast
        ring
      rw [he]
      exact floatR_dyadic _ _ (natAbs_lt_two_pow_53 hmB (by omega))
    rw [hfix1, hfix2, hfix3, hfix4]
  · set d : ℚ := floatR (100 - floatR (floatR (floatR q - 15) * 2)) with hd
    have herr := readChainErr q hq0 hqB
    rw [← hd] at herr
    have herr2 := abs_le.mp herr
    set E : ℚ := 130 - 2 * q with hE
    have hEform : (100 : ℚ) - (q - 15) * 2 = E := by
      rw [hE]
      ring
    set k : ℤ := ⌊E⌋ with hk
    have hEs : E * ((s : ℕ) : ℚ) = ((130 * (s : ℤ) - 2 * (w : ℤ) : ℤ) : ℚ) := by
      rw [hE, hq]
      push_cast
      field_simp
    have hfloor1 : (k : ℚ) ≤ E := Int.floor_le E
    have hfloor2 : E < (k : ℚ) + 1 := Int.lt_floor_add_one E
    have hks : k * (s : ℤ) < 130 * (s : ℤ) - 2 * (w : ℤ) := by
      have h2 : ((k * (s : ℤ) : ℤ) : ℚ) ≤ ((130 * (s : ℤ) - 2 * (w : ℤ) : ℤ) : ℚ) := by
        rw [← hEs]
        push_cast
        nlinarith
      have h3 : k * (s : ℤ) ≤ 130 * (s : ℤ) - 2 * (w : ℤ) := by exact_mod_cast h2
      rcases lt_or_eq_of_le h3 with hlt | heq
      · exact hlt
      · exfalso
        apply hdvd
        have hzd : ((s : ℕ) : ℤ) ∣ ((2 * w : ℕ) : ℤ) := by
          refine ⟨130 - k, ?_⟩
          push_cast
          linarith [heq]
        exact_mod_cast hzd
    have hks2 : 130 * (s : ℤ) - 2 * (w : ℤ) ≤ (k + 1) * (s : ℤ) - 1 := by
      have h2 : ((130 * (s : ℤ) - 2 * (w : ℤ) : ℤ) : ℚ) < (((k + 1) * (s : ℤ) : ℤ) : ℚ) := by
        rw [← hEs]
        push_cast
        nlinarith
      have h3 : (130 * (s : ℤ) - 2 * (w : ℤ) : ℤ) < (k + 1) * (s : ℤ) := by exact_mod_cast h2
      omega
    have hgap1 : (k : ℚ) + 1 / ((s : ℕ) : ℚ) ≤ E := by
      have h1 : (1 : ℚ) ≤ (E - k) * ((s : ℕ) : ℚ) := by
        have h2 : ((k * (s : ℤ) + 1 : ℤ) : ℚ) ≤ ((130 * (s : ℤ) - 2 * (w : ℤ) : ℤ) : ℚ) := by
          exact_mod_cast (by omega : k * (s : ℤ) + 1 ≤ 130 * (s : ℤ) - 2 * (w : ℤ))
        rw [← hEs] at h2
        push_cast at h2
        nlinarith
      have h3 : 1 / ((s : ℕ) : ℚ) ≤ E - k := by
        rw [div_le_iff₀ hspos]
        linarith
      linarith
    have hgap2 : E ≤ (k : ℚ) + 1 - 1 / ((s : ℕ) : ℚ) := by
      have h1 : (1 : ℚ) ≤ ((k : ℚ) + 1 - E) * ((s : ℕ) : ℚ) := by
        have h2 : ((130 * (s : ℤ) - 2 * (w : ℤ) : ℤ) : ℚ) ≤ (((k + 1) * (s : ℤ) - 1 : ℤ) : ℚ) := by
          exact_mod_cast hks2
        rw [← hEs] at h2
        push_cast at h2
        nlinarith
      have h3 : 1 / ((s : ℕ) : ℚ) ≤ (k : ℚ) + 1 - E := by
        rw [div_le_iff₀ hspos]
        linarith
      linarith
    have hsmall : (8 * q + 201) / 2 ^ 53 < 1 / ((s : ℕ) : ℚ) := by
      rw [div_lt_div_iff₀ (by norm_num) hspos]
      have hqs : q * ((s : ℕ) : ℚ) = (w : ℚ) := by
        rw [hq]
        field_simp
      have hexp : (8 * q + 201) * ((s : ℕ) : ℚ) = 8 * (w : ℚ) + 201 * ((s : ℕ) : ℚ) := by
        calc (8 * q + 201) * ((s : ℕ) : ℚ) = 8 * (q * ((s : ℕ) : ℚ)) + 201 * ((s : ℕ) : ℚ) := by
              ring
          _ = 8 * (w : ℚ) + 201 * ((s : ℕ) : ℚ) := by rw [hqs]
      rw [hexp]
      have hw2 : (w : ℚ) ≤ 2 ^ 33 := by exact_mod_cast hwB
      have hs2 : ((s : ℕ) : ℚ) ≤ 2 ^ 33 := by exact_mod_cast hsB
      nlinarith
    have hd1 : (k : ℚ) < d := by
      have hsinv : 0 < 1 / ((s : ℕ) : ℚ) := by positivity
      linarith [herr2.1]
    have hd2 : d < (k : ℚ) + 1 := by linarith [herr2.2]
    have hE1 : (k : ℚ) < E := by
      have hsinv : 0 < 1 / ((s : ℕ) : ℚ) := by positivity
      linarith
    rw [hEform]
    exact truncClampEq k hd1 hd2 hE1 hfloor2

theorem readability_spec_witness :
    "hello world.".toList.length ≤ 2 ^ 32 ∧
      _calculate_readability "hello world.".toList =
        pyTrunc (max 0 (min 100 (100 - (((pySplit "hello world.".toList).length : ℚ) /
          ((max (splitOnDot "hello world.".toList).length 1 : ℕ) : ℚ) - 15) * 2))) :=
  ⟨by with_unfolding_all decide,
    readability_spec "hello world.".toList (by with_unfolding_all decide)⟩
